import Mathlib

/-!
Verification of the algorithmic core of the tomtom lighting-command timeline
editor: the time/pixel coordinate mapping, the command-duration table, the
greedy interval-packing layout engine, the waveform/beat analysis pass, the
drag-to-edit update, and the viewport scroll state machine.

Numbers that the TypeScript source manipulates as IEEE doubles are modelled
as rationals; `Math.sqrt` is modelled as an abstract function parameter.
-/

namespace Tomtom

/-- Light types supported by StacyPilot (src/unnamed/part_004, `LightType`).
The part_001 Timeline additionally renders a `WashesB` lane. -/
inductive LightType
  | HeadsA | HeadsB
  | BarsA | BarsB
  | LEDsA | LEDsB | LEDsC
  | StrobesA | StrobesB
  | WashesA | WashesB
  deriving DecidableEq, Repr

/-- Command types (src/unnamed/part_004, `CommandType`). -/
inductive CommandType
  | On | Off | FadeOn | FadeOff
  | Cue | Action
  | BeamMode | BeamThickness | GoboSpread
  | Tilt | Pan | MotorSpeed
  | RotateGobo | Follow | StopFollowing
  | Color | SmoothColor | AnimatedGradients
  | SetGlobalCueSetting | SetCueSetting | LoopCues
  | CueSpeed | FadeSpeed | Dimness
  | Reset | HardReset
  deriving DecidableEq, Repr

/-- The slice of `CommandParameters` (src/unnamed/part_004) that the verified
logic reads: the lane assignment `lightType` and the optional `fadeSpeed`.
The remaining optional parameters (cue, action, beam, position, color, ...)
are never consulted by the layout or duration computations. -/
structure CommandParameters where
  lightType : LightType
  fadeSpeed : Option ℚ := none
  deriving DecidableEq, Repr

/-- `StacyCommand` (src/unnamed/part_004): an id, a time in seconds, a type,
and parameters. -/
structure StacyCommand where
  id : String
  time : ℚ
  type : CommandType
  parameters : CommandParameters
  deriving DecidableEq, Repr

/-- `getCommandDuration` (src/unnamed/part_001 lines 306-319): the derived,
type-dependent duration of a command.  `fadeSpeed ?? 1` is the
nullish-coalescing default. -/
def getCommandDuration (command : StacyCommand) : ℚ :=
  match command.type with
  | .FadeOn => command.parameters.fadeSpeed.getD 1
  | .FadeOff => command.parameters.fadeSpeed.getD 1
  | .Color => 2
  | .Cue => 3
  | _ => 1/10

/-- `timelineWidth` (src/unnamed/part_001 line 96):
`Math.min(20000, Math.max(800, duration * 60 * zoom))`. -/
def timelineWidth (duration zoom : ℚ) : ℚ :=
  min 20000 (max 800 (duration * 60 * zoom))

/-- `waveformDisplayWidth` (src/src/components/AudioPlayer.tsx line 41):
`Math.max(800, duration * 60 * zoom)` — note: no upper bound. -/
def waveformDisplayWidth (duration zoom : ℚ) : ℚ :=
  max 800 (duration * 60 * zoom)

/-- `timeToPixel` (src/unnamed/part_001 lines 99-102): guarded against
`duration == 0`, otherwise `(time / duration) * timelineWidth`. -/
def timeToPixel (duration zoom time : ℚ) : ℚ :=
  if duration = 0 then 0
  else (time / duration) * timelineWidth duration zoom

/-- `pixelToTime` (src/unnamed/part_001 lines 105-108): guarded against
`duration == 0`, otherwise `(pixel / timelineWidth) * duration`. -/
def pixelToTime (duration zoom pixel : ℚ) : ℚ :=
  if duration = 0 then 0
  else (pixel / timelineWidth duration zoom) * duration

/-- Block count chosen by `generateAdvancedWaveform`
(src/src/components/AudioPlayer.tsx line 185):
`Math.min(1500, Math.floor(audioBuffer.length / 1024))`. -/
def waveformBlockCount (sampleCount : ℕ) : ℕ :=
  min 1500 (sampleCount / 1024)

/-- A detected beat (`BeatData` in src/src/components/AudioPlayer.tsx). -/
structure BeatData where
  time : ℚ
  strength : ℚ
  deriving DecidableEq, Repr

/-- The sample indices `blockStart, ..., blockEnd - 1` visited by the inner
loop of `generateAdvancedWaveform`. -/
def blockIndices (blockStart blockEnd : ℕ) : List ℕ :=
  (List.range (blockEnd - blockStart)).map (blockStart + ·)

/-- `peak` accumulated by the inner loop (AudioPlayer.tsx lines 205-210):
starting from 0, `peak = Math.max(peak, Math.abs(rawData[j] ?? 0))`. -/
def blockPeak (rawData : List ℚ) (blockStart blockEnd : ℕ) : ℚ :=
  ((blockIndices blockStart blockEnd).map (fun j => |rawData.getD j 0|)).foldl max 0

/-- The sum of squared samples accumulated into `rms` by the inner loop
(AudioPlayer.tsx lines 205-210), before the square root is taken. -/
def blockSumSquares (rawData : List ℚ) (blockStart blockEnd : ℕ) : ℚ :=
  ((blockIndices blockStart blockEnd).map
     (fun j => rawData.getD j 0 * rawData.getD j 0)).foldl (· + ·) 0

/-- `beatThreshold = 1.3` (AudioPlayer.tsx line 194). -/
def beatThreshold : ℚ := 13/10

/-- Loop state of `generateAdvancedWaveform`: the accumulated
`waveformPoints`, `beats`, and the smoothed `previousEnergy`. -/
structure AnalysisState where
  waveformPoints : List ℚ
  beats : List BeatData
  previousEnergy : ℚ
  deriving DecidableEq, Repr

/-- One iteration of the block loop of `generateAdvancedWaveform`
(AudioPlayer.tsx lines 196-229).  `sq` abstracts `Math.sqrt`.  The block size
subtraction `blockEnd - blockStart` is natural subtraction; in every run of
the surrounding pipeline `blockStart < blockEnd`, so it agrees with the
source's number subtraction. -/
def analyzeStep (sq : ℚ → ℚ) (rawData : List ℚ) (blockSize samples : ℕ)
    (audioDuration : ℚ) (st : AnalysisState) (i : ℕ) : AnalysisState :=
  let blockStart := blockSize * i
  let blockEnd := min (blockStart + blockSize) rawData.length
  let peak := blockPeak rawData blockStart blockEnd
  let rms := sq (blockSumSquares rawData blockStart blockEnd / ((blockEnd - blockStart : ℕ) : ℚ))
  let energy := rms
  let amplitude := max peak (rms * 2)
  let beats :=
    if st.previousEnergy * beatThreshold < energy ∧ 1/10 < energy then
      st.beats ++ [{ time := ((i : ℚ) / (samples : ℚ)) * audioDuration,
                     strength := energy / st.previousEnergy }]
    else st.beats
  { waveformPoints := st.waveformPoints ++ [amplitude]
    beats := beats
    previousEnergy := energy * (7/10) + st.previousEnergy * (3/10) }

/-- The block loop of `generateAdvancedWaveform` (AudioPlayer.tsx lines
184-229) run over the whole buffer: block count and block size as computed at
lines 185-186, loop from `i = 0` to `samples - 1`. -/
def runAnalysis (sq : ℚ → ℚ) (rawData : List ℚ) (audioDuration : ℚ) : AnalysisState :=
  let samples := waveformBlockCount rawData.length
  let blockSize := rawData.length / samples
  (List.range samples).foldl (analyzeStep sq rawData blockSize samples audioDuration)
    { waveformPoints := [], beats := [], previousEnergy := 0 }

/-- Maximum of a list of rationals, `none` on the empty list.  This models
`Math.max(...waveformPoints)`: on a nonempty list it is the maximum, and the
empty case (where the source gets `-Infinity`) is only ever used to map over
an empty list, so the distinction is unobservable. -/
def listMax : List ℚ → Option ℚ
  | [] => none
  | x :: xs =>
    match listMax xs with
    | none => some x
    | some m => some (max x m)

/-- Normalization step of `generateAdvancedWaveform` (AudioPlayer.tsx lines
231-233): `waveformPoints.map(val => maxVal > 0 ? val / maxVal : 0)`. -/
def normalizeWaveform (points : List ℚ) : List ℚ :=
  match listMax points with
  | none => []
  | some maxVal => points.map (fun v => if 0 < maxVal then v / maxVal else 0)

/-- The normalized waveform produced by a successful run of
`generateAdvancedWaveform`. -/
def generateWaveform (sq : ℚ → ℚ) (rawData : List ℚ) (audioDuration : ℚ) : List ℚ :=
  normalizeWaveform (runAnalysis sq rawData audioDuration).waveformPoints

/-- The beat list produced by a successful run of `generateAdvancedWaveform`. -/
def generateBeats (sq : ℚ → ℚ) (rawData : List ℚ) (audioDuration : ℚ) : List BeatData :=
  (runAnalysis sq rawData audioDuration).beats

/-- The fallback waveform installed by the catch branch of
`generateAdvancedWaveform` (AudioPlayer.tsx line 247):
`new Array(100).fill(0.1)`. -/
def fallbackWaveform : List ℚ := List.replicate 100 (1/10)

/-- The whole `generateAdvancedWaveform` body seen as a fallible computation:
`some (rawData, duration)` is a successful decode of the audio source, `none`
is a decode/analysis failure, which the catch branch (AudioPlayer.tsx lines
245-251) turns into the fallback waveform and an empty beat list instead of
propagating the error. -/
def analyzeAudioBuffer (sq : ℚ → ℚ) (decoded : Option (List ℚ × ℚ)) :
    List ℚ × List BeatData :=
  match decoded with
  | some (rawData, audioDuration) =>
    (generateWaveform sq rawData audioDuration, generateBeats sq rawData audioDuration)
  | none => (fallbackWaveform, [])

/-- The comparison used by the JS sort comparator `(a, b) => a.time - b.time`. -/
def timeLE (a b : StacyCommand) : Prop := a.time ≤ b.time

instance : DecidableRel timeLE := fun a b => inferInstanceAs (Decidable (a.time ≤ b.time))

/-- The commands of one lane in chronological order
(src/unnamed/part_001 lines 58-60): filter by `parameters.lightType`, then a
stable sort by `time` ascending. -/
def laneCommands (commands : List StacyCommand) (lightType : LightType) : List StacyCommand :=
  (commands.filter (fun cmd => decide (cmd.parameters.lightType = lightType))).insertionSort timeLE

/-- The scan of the inner `for (const track of tracks)` loop of
`organizeCommandsIntoTracks` (src/unnamed/part_001 lines 70-84): find the
first nonempty track whose last command ends no later than `command.time` and
append `command` to it; `none` if there is no such track. -/
def tryPlace (command : StacyCommand) : List (List StacyCommand) → Option (List (List StacyCommand))
  | [] => none
  | track :: rest =>
    match track.getLast? with
    | none => (tryPlace command rest).map (track :: ·)
    | some lastCommand =>
      if lastCommand.time + getCommandDuration lastCommand ≤ command.time then
        some ((track ++ [command]) :: rest)
      else
        (tryPlace command rest).map (track :: ·)

/-- One iteration of the outer loop of `organizeCommandsIntoTracks`
(src/unnamed/part_001 lines 64-90): place the command in the first available
track, or open a new track at the end. -/
def placeCommand (tracks : List (List StacyCommand)) (command : StacyCommand) :
    List (List StacyCommand) :=
  match tryPlace command tracks with
  | some placed => placed
  | none => tracks ++ [[command]]

/-- `organizeCommandsIntoTracks` (src/unnamed/part_001 lines 57-93): the
lane's commands in time order, greedily packed into rows. -/
def organizeCommandsIntoTracks (commands : List StacyCommand) (lightType : LightType) :
    List (List StacyCommand) :=
  (laneCommands commands lightType).foldl placeCommand []

/-- A command's half-open occupancy interval `[time, time + duration)`
contains the instant `t`. -/
def containsInstant (c : StacyCommand) (t : ℚ) : Prop :=
  c.time ≤ t ∧ t < c.time + getCommandDuration c

instance (c : StacyCommand) (t : ℚ) : Decidable (containsInstant c t) :=
  inferInstanceAs (Decidable (_ ∧ _))

/-- Two commands overlap when their half-open intervals properly intersect. -/
def overlapping (a b : StacyCommand) : Prop :=
  max a.time b.time < min (a.time + getCommandDuration a) (b.time + getCommandDuration b)

instance (a b : StacyCommand) : Decidable (overlapping a b) :=
  inferInstanceAs (Decidable (_ < _))

/-- The number of commands of `l` whose interval contains the instant `t`. -/
def countAt (l : List StacyCommand) (t : ℚ) : ℕ :=
  (l.filter (fun c => decide (containsInstant c t))).length

/-- `updateCommand` (src/src/components/MusicTimeline.tsx lines 49-54)
restricted to the `{ time: newTime }` update that dragging issues: replace
the matching command's time and re-sort by time. -/
def updateCommandTime (commands : List StacyCommand) (commandId : String) (newTime : ℚ) :
    List StacyCommand :=
  (commands.map (fun cmd => if cmd.id = commandId then { cmd with time := newTime } else cmd)).insertionSort
    timeLE

/-- `handleMouseMove` (src/unnamed/part_001 lines 193-202): while a drag is
active, the candidate time is `pixelToTime(pointerX - rectLeft - dragOffset)`
clamped by `Math.max(0, Math.min(duration, ·))`, and is propagated at once
through `onCommandUpdate` (wired to `updateCommand`). -/
def handleMouseMove (duration zoom : ℚ) (isDragging : Bool)
    (dragCommand : Option StacyCommand) (dragOffset clientX rectLeft : ℚ)
    (commands : List StacyCommand) : List StacyCommand :=
  match isDragging, dragCommand with
  | true, some cmd =>
    let x := clientX - rectLeft - dragOffset
    let newTime := max 0 (min duration (pixelToTime duration zoom x))
    updateCommandTime commands cmd.id newTime
  | _, _ => commands

/-- Viewport scroll-suspension state (AudioPlayer.tsx lines 34-35, 70-97):
the `isUserScrollingWaveform` flag, the `lastWaveformScrollTime` timestamp,
and the deadline of the pending reset timeout, if one is armed.  Times are in
milliseconds as produced by `Date.now()`. -/
structure ScrollState where
  isUserScrolling : Bool
  lastScrollTime : ℚ
  pendingTimerAt : Option ℚ
  deriving DecidableEq, Repr

/-- The three events that drive the scroll-suspension state: a manual scroll
of the container, the firing of the armed reset timeout, and an explicit seek
(`handleSeek`, AudioPlayer.tsx lines 441-461). -/
inductive ScrollEvent
  | scroll (now : ℚ)
  | timerFire (now : ℚ)
  | seek (now : ℚ)
  deriving DecidableEq, Repr

/-- One transition of the scroll-suspension machine.  `scroll` is
`handleScroll` (sets the flag and the timestamp) together with the reset
effect re-arming the 2100 ms timeout (clearing any previous one — timers are
replaced, never stacked).  `timerFire` is the timeout body: it clears the
flag only when more than 2000 ms have passed since the last scroll.  `seek`
is the `setIsUserScrollingWaveform(false)` in `handleSeek`, after which the
reset effect disarms the timeout. -/
def scrollStep (st : ScrollState) : ScrollEvent → ScrollState
  | .scroll now =>
    { isUserScrolling := true
      lastScrollTime := now
      pendingTimerAt := some (now + 2100) }
  | .timerFire now =>
    { st with
      isUserScrolling := if 2000 < now - st.lastScrollTime then false else st.isUserScrolling
      pendingTimerAt := none }
  | .seek _ =>
    { st with isUserScrolling := false, pendingTimerAt := none }

/-- The amplitude that the block loop appends for block `i`: a proof-side
characterization of the `waveformPoints` part of `analyzeStep`. -/
def blockAmplitude (sq : ℚ → ℚ) (rawData : List ℚ) (blockSize i : ℕ) : ℚ :=
  let blockStart := blockSize * i
  let blockEnd := min (blockStart + blockSize) rawData.length
  max (blockPeak rawData blockStart blockEnd)
    (sq (blockSumSquares rawData blockStart blockEnd / ((blockEnd - blockStart : ℕ) : ℚ)) * 2)

/-- A concrete suspended scroll state, used as a witness input. -/
def suspendedScrollState : ScrollState :=
  { isUserScrolling := true, lastScrollTime := 0, pendingTimerAt := some 2100 }

/-- A concrete command used as a drag-witness input. -/
def dragWitnessCommand : StacyCommand := ⟨"a", 1, .On, ⟨.BarsA, none⟩⟩

/-- `a` ends no later than `b` starts: the non-overlap condition the greedy
placement checks (`commandStart >= lastCommandEnd`). -/
def endsBefore (a b : StacyCommand) : Prop :=
  a.time + getCommandDuration a ≤ b.time

instance : DecidableRel endsBefore :=
  fun a b => inferInstanceAs (Decidable (a.time + getCommandDuration a ≤ b.time))

instance : IsTotal StacyCommand timeLE :=
  ⟨fun a b => le_total a.time b.time⟩

instance : IsTrans StacyCommand timeLE :=
  ⟨fun _ _ _ hab hbc => le_trans hab hbc⟩

/-- Scenario-B style commands on one lane: two 0.1 s point effects at 1.0 s
and 1.05 s and a third at 2.0 s. -/
def laneWitnessCommands : List StacyCommand :=
  [⟨"a", 1, .On, ⟨.BarsA, none⟩⟩, ⟨"b", 21/20, .On, ⟨.BarsA, none⟩⟩,
   ⟨"c", 2, .On, ⟨.BarsA, none⟩⟩]

/-- A lane holding a 0.1 s point effect and a FadeOn with `fadeSpeed = 0`,
whose derived duration is 0 (an empty half-open interval). -/
def zeroDurationLane : List StacyCommand :=
  [⟨"a", 0, .On, ⟨.BarsA, none⟩⟩, ⟨"b", 0, .FadeOn, ⟨.BarsA, some 0⟩⟩]

/-! ## Helper lemmas -/

lemma analyzeStep_points (sq : ℚ → ℚ) (rawData : List ℚ) (blockSize samples : ℕ)
    (audioDuration : ℚ) (st : AnalysisState) (i : ℕ) :
    (analyzeStep sq rawData blockSize samples audioDuration st i).waveformPoints
      = st.waveformPoints ++ [blockAmplitude sq rawData blockSize i] := rfl

lemma le_foldl_max (l : List ℚ) (a : ℚ) : a ≤ l.foldl max a := by
  induction l generalizing a with
  | nil => exact le_refl a
  | cons x xs ih => exact le_trans (le_max_left a x) (ih (max a x))

lemma mem_le_foldl_max {l : List ℚ} {x : ℚ} (hx : x ∈ l) (a : ℚ) : x ≤ l.foldl max a := by
  induction l generalizing a with
  | nil => cases hx
  | cons y ys ih =>
    rcases List.mem_cons.mp hx with h | h
    · subst h
      exact le_trans (le_max_right a x) (le_foldl_max ys _)
    · exact ih h _

lemma foldl_max_le {l : List ℚ} {a b : ℚ} (ha : a ≤ b) (h : ∀ x ∈ l, x ≤ b) :
    l.foldl max a ≤ b := by
  induction l generalizing a with
  | nil => exact ha
  | cons x xs ih =>
    exact ih (max_le ha (h x (List.mem_cons_self x xs)))
      (fun y hy => h y (List.mem_cons_of_mem _ hy))

lemma foldl_add_zero {l : List ℚ} (h : ∀ x ∈ l, x = 0) : l.foldl (· + ·) 0 = 0 := by
  induction l with
  | nil => rfl
  | cons x xs ih =>
    have hx : x = 0 := h x (List.mem_cons_self x xs)
    have : xs.foldl (· + ·) 0 = 0 := ih (fun y hy => h y (List.mem_cons_of_mem _ hy))
    simpa [hx] using this

lemma getD_eq_zero {rawData : List ℚ} (h : ∀ s ∈ rawData, s = 0) (j : ℕ) :
    rawData.getD j 0 = 0 := by
  induction rawData generalizing j with
  | nil => rfl
  | cons x xs ih =>
    cases j with
    | zero => exact h x (List.mem_cons_self x xs)
    | succ j => exact ih (fun y hy => h y (List.mem_cons_of_mem _ hy)) j

lemma blockPeak_nonneg (rawData : List ℚ) (blockStart blockEnd : ℕ) :
    0 ≤ blockPeak rawData blockStart blockEnd :=
  le_foldl_max _ 0

lemma abs_getD_le_blockPeak {rawData : List ℚ} {blockStart blockEnd j : ℕ}
    (hj : j ∈ blockIndices blockStart blockEnd) :
    |rawData.getD j 0| ≤ blockPeak rawData blockStart blockEnd :=
  mem_le_foldl_max (List.mem_map_of_mem _ hj) 0

lemma blockPeak_eq_zero {rawData : List ℚ} (h : ∀ s ∈ rawData, s = 0)
    (blockStart blockEnd : ℕ) : blockPeak rawData blockStart blockEnd = 0 := by
  refine le_antisymm (foldl_max_le le_rfl ?_) (blockPeak_nonneg _ _ _)
  intro x hx
  rcases List.mem_map.mp hx with ⟨j, _, hj⟩
  rw [← hj, getD_eq_zero h, abs_zero]

lemma blockSumSquares_eq_zero {rawData : List ℚ} (h : ∀ s ∈ rawData, s = 0)
    (blockStart blockEnd : ℕ) : blockSumSquares rawData blockStart blockEnd = 0 := by
  apply foldl_add_zero
  intro x hx
  rcases List.mem_map.mp hx with ⟨j, _, hj⟩
  rw [← hj, getD_eq_zero h, mul_zero]

lemma blockAmplitude_nonneg (sq : ℚ → ℚ) (rawData : List ℚ) (blockSize i : ℕ) :
    0 ≤ blockAmplitude sq rawData blockSize i :=
  le_trans (blockPeak_nonneg _ _ _) (le_max_left _ _)

lemma blockAmplitude_eq_zero {rawData : List ℚ} (h : ∀ s ∈ rawData, s = 0)
    {sq : ℚ → ℚ} (hsq0 : sq 0 = 0) (blockSize i : ℕ) :
    blockAmplitude sq rawData blockSize i = 0 := by
  unfold blockAmplitude
  simp only []
  rw [blockPeak_eq_zero h, blockSumSquares_eq_zero h, zero_div, hsq0, zero_mul, max_self]

lemma foldl_analyzeStep_points (sq : ℚ → ℚ) (rawData : List ℚ) (blockSize samples : ℕ)
    (audioDuration : ℚ) :
    ∀ (n : ℕ) (st : AnalysisState),
      ((List.range n).foldl (analyzeStep sq rawData blockSize samples audioDuration) st).waveformPoints
        = st.waveformPoints ++ (List.range n).map (blockAmplitude sq rawData blockSize) := by
  intro n
  induction n with
  | zero => intro st; simp
  | succ n ih =>
    intro st
    rw [List.range_succ, List.foldl_append, List.map_append, List.foldl_cons, List.foldl_nil,
      analyzeStep_points, ih, List.append_assoc]
    rfl

lemma runAnalysis_points (sq : ℚ → ℚ) (rawData : List ℚ) (audioDuration : ℚ) :
    (runAnalysis sq rawData audioDuration).waveformPoints
      = (List.range (waveformBlockCount rawData.length)).map
          (blockAmplitude sq rawData (rawData.length / waveformBlockCount rawData.length)) := by
  rw [runAnalysis, foldl_analyzeStep_points]
  rfl

lemma listMax_isSome (x : ℚ) (xs : List ℚ) : ∃ m, listMax (x :: xs) = some m := by
  cases h : listMax xs with
  | none => exact ⟨x, by simp [listMax, h]⟩
  | some m => exact ⟨max x m, by simp [listMax, h]⟩

lemma listMax_none {l : List ℚ} (h : listMax l = none) : l = [] := by
  cases l with
  | nil => rfl
  | cons x xs =>
    rcases listMax_isSome x xs with ⟨m, hm⟩
    rw [hm] at h
    cases h

lemma listMax_mem {l : List ℚ} {m : ℚ} (h : listMax l = some m) : m ∈ l := by
  induction l generalizing m with
  | nil => cases h
  | cons x xs ih =>
    cases hxs : listMax xs with
    | none =>
      rw [listMax, hxs] at h
      cases h
      exact List.mem_cons_self _ _
    | some m2 =>
      rw [listMax, hxs] at h
      cases h
      rcases le_total x m2 with hle | hle
      · rw [max_eq_right hle]
        exact List.mem_cons_of_mem _ (ih hxs)
      · rw [max_eq_left hle]
        exact List.mem_cons_self _ _

lemma le_listMax {l : List ℚ} {m : ℚ} (h : listMax l = some m) : ∀ x ∈ l, x ≤ m := by
  induction l generalizing m with
  | nil => simp
  | cons y ys ih =>
    intro x hx
    cases hys : listMax ys with
    | none =>
      have : ys = [] := listMax_none hys
      subst this
      rw [listMax] at h
      simp only [listMax] at h
      cases h
      rcases List.mem_cons.mp hx with h | h
      · exact le_of_eq h
      · cases h
    | some m2 =>
      rw [listMax, hys] at h
      cases h
      rcases List.mem_cons.mp hx with h | h
      · exact h ▸ le_max_left _ _
      · exact le_trans (ih hys x h) (le_max_right _ _)

lemma blockPeak_le_blockAmplitude (sq : ℚ → ℚ) (rawData : List ℚ) (blockSize i : ℕ) :
    blockPeak rawData (blockSize * i) (min (blockSize * i + blockSize) rawData.length)
      ≤ blockAmplitude sq rawData blockSize i := by
  unfold blockAmplitude
  simp only []
  exact le_max_left _ _

lemma analyzeStep_beats (sq : ℚ → ℚ) (rawData : List ℚ) (blockSize samples : ℕ)
    (audioDuration : ℚ) (st : AnalysisState) (i : ℕ) :
    (analyzeStep sq rawData blockSize samples audioDuration st i).beats = st.beats ∨
    ∃ s : ℚ, (analyzeStep sq rawData blockSize samples audioDuration st i).beats
      = st.beats ++ [{ time := ((i : ℚ) / (samples : ℚ)) * audioDuration, strength := s }] := by
  simp only [analyzeStep]
  split
  · exact Or.inr ⟨_, rfl⟩
  · exact Or.inl rfl

lemma analyzeStep_ratio_strength (sq : ℚ → ℚ) (rawData : List ℚ) (blockSize samples : ℕ)
    (audioDuration : ℚ) (st : AnalysisState) (i : ℕ) (hprev : 0 < st.previousEnergy) :
    ∀ b ∈ (analyzeStep sq rawData blockSize samples audioDuration st i).beats,
      b ∈ st.beats ∨ 1 < b.strength := by
  intro b hb
  simp only [analyzeStep] at hb
  split at hb
  case isTrue h =>
    rcases List.mem_append.mp hb with h1 | h1
    · exact Or.inl h1
    · have hbeq := List.mem_singleton.mp h1
      right
      rw [hbeq]
      refine (one_lt_div hprev).mpr (lt_trans ?_ h.1)
      exact lt_mul_of_one_lt_right hprev (by norm_num [beatThreshold])
  case isFalse => exact Or.inl hb

lemma beatTime_mono {i j samples : ℕ} (hij : i ≤ j) {d : ℚ} (hd : 0 ≤ d) :
    ((i : ℚ) / (samples : ℚ)) * d ≤ ((j : ℚ) / (samples : ℚ)) * d := by
  apply mul_le_mul_of_nonneg_right _ hd
  rcases Nat.eq_zero_or_pos samples with h | h
  · subst h
    simp
  · have hs : (0 : ℚ) < (samples : ℚ) := by exact_mod_cast h
    exact (div_le_div_iff_of_pos_right hs).mpr (by exact_mod_cast hij)

lemma foldl_analyzeStep_beats_sorted (sq : ℚ → ℚ) (rawData : List ℚ)
    (blockSize samples : ℕ) (audioDuration : ℚ) (hd : 0 ≤ audioDuration) :
    ∀ n : ℕ,
      (((List.range n).foldl (analyzeStep sq rawData blockSize samples audioDuration)
          { waveformPoints := [], beats := [], previousEnergy := 0 }).beats).Pairwise
        (fun a b => a.time ≤ b.time) ∧
      ∀ b ∈ ((List.range n).foldl (analyzeStep sq rawData blockSize samples audioDuration)
          { waveformPoints := [], beats := [], previousEnergy := 0 }).beats,
        ∃ i ≤ n, b.time = ((i : ℚ) / (samples : ℚ)) * audioDuration := by
  intro n
  induction n with
  | zero => simp
  | succ n ih =>
    obtain ⟨hpw, hbd⟩ := ih
    rw [List.range_succ, List.foldl_append, List.foldl_cons, List.foldl_nil]
    rcases analyzeStep_beats sq rawData blockSize samples audioDuration
      ((List.range n).foldl (analyzeStep sq rawData blockSize samples audioDuration)
        { waveformPoints := [], beats := [], previousEnergy := 0 }) n with heq | ⟨s, heq⟩
    · rw [heq]
      exact ⟨hpw, fun b hb => by
        rcases hbd b hb with ⟨i, hi, ht⟩
        exact ⟨i, le_trans hi (Nat.le_succ n), ht⟩⟩
    · rw [heq]
      constructor
      · rw [List.pairwise_append]
        refine ⟨hpw, List.pairwise_singleton _ _, ?_⟩
        intro a ha b hb
        rcases hbd a ha with ⟨i, hi, hta⟩
        have hbeq := List.mem_singleton.mp hb
        rw [hbeq, hta]
        exact beatTime_mono hi hd
      · intro b hb
        rcases List.mem_append.mp hb with h1 | h1
        · rcases hbd b h1 with ⟨i, hi, ht⟩
          exact ⟨i, le_trans hi (Nat.le_succ n), ht⟩
        · have hbeq := List.mem_singleton.mp h1
          exact ⟨n, Nat.le_succ n, by rw [hbeq]⟩

lemma mem_of_getLast?_eq {l : List StacyCommand} {a : StacyCommand}
    (h : l.getLast? = some a) : a ∈ l := by
  rcases List.mem_getLast?_eq_getLast (show a ∈ l.getLast? from h) with ⟨hne, heq⟩
  rw [heq]
  exact List.getLast_mem hne

lemma countAt_perm {l1 l2 : List StacyCommand} (h : l1.Perm l2) (t : ℚ) :
    countAt l1 t = countAt l2 t :=
  (h.filter _).length_eq

lemma countAt_append (l1 l2 : List StacyCommand) (t : ℚ) :
    countAt (l1 ++ l2) t = countAt l1 t + countAt l2 t := by
  simp [countAt, List.filter_append]

lemma countAt_cons (x : StacyCommand) (xs : List StacyCommand) (t : ℚ) :
    countAt (x :: xs) t = (if containsInstant x t then 1 else 0) + countAt xs t := by
  by_cases h : containsInstant x t <;>
    simp [countAt, List.filter_cons, h, Nat.add_comm]

lemma tryPlace_none {command : StacyCommand} :
    ∀ {tracks : List (List StacyCommand)}, tryPlace command tracks = none →
      ∀ tr ∈ tracks, ∀ lastCommand, tr.getLast? = some lastCommand →
        ¬ endsBefore lastCommand command := by
  intro tracks
  induction tracks with
  | nil =>
    intro _ tr htr
    cases htr
  | cons track rest ih =>
    intro h tr htr lastCommand hlast
    cases hgl : track.getLast? with
    | none =>
      simp only [tryPlace, hgl] at h
      have hrest : tryPlace command rest = none := by
        cases hr : tryPlace command rest with
        | none => rfl
        | some r2 =>
          rw [hr] at h
          simp at h
      rcases List.mem_cons.mp htr with rfl | htr2
      · rw [hgl] at hlast
        cases hlast
      · exact ih hrest tr htr2 lastCommand hlast
    | some lc =>
      simp only [tryPlace, hgl] at h
      split_ifs at h with hcond
      have hrest : tryPlace command rest = none := by
        cases hr : tryPlace command rest with
        | none => rfl
        | some r2 =>
          rw [hr] at h
          simp at h
      rcases List.mem_cons.mp htr with rfl | htr2
      · rw [hgl] at hlast
        cases hlast
        exact hcond
      · exact ih hrest tr htr2 lastCommand hlast

lemma tryPlace_some_spec {command : StacyCommand} :
    ∀ {tracks tracks2 : List (List StacyCommand)}, tryPlace command tracks = some tracks2 →
      tracks2.length = tracks.length ∧
      tracks2.flatten.Perm (tracks.flatten ++ [command]) ∧
      ∀ tr2 ∈ tracks2,
        tr2 ∈ tracks ∨
        ∃ tr ∈ tracks, tr2 = tr ++ [command] ∧
          ∃ lastCommand, tr.getLast? = some lastCommand ∧ endsBefore lastCommand command := by
  intro tracks
  induction tracks with
  | nil =>
    intro t2 h
    cases h
  | cons track rest ih =>
    intro tracks2 h
    cases hgl : track.getLast? with
    | none =>
      simp only [tryPlace, hgl] at h
      cases hr : tryPlace command rest with
      | none =>
        rw [hr] at h
        simp at h
      | some r2 =>
        rw [hr] at h
        have h2 : track :: r2 = tracks2 := by simpa using h
        subst h2
        obtain ⟨hlen, hperm, hmem⟩ := ih hr
        refine ⟨by simp [hlen], ?_, ?_⟩
        · rw [List.flatten_cons, List.flatten_cons, List.append_assoc]
          exact hperm.append_left track
        · intro tr2 htr2
          rcases List.mem_cons.mp htr2 with rfl | h2
          · exact Or.inl (List.mem_cons_self _ _)
          · rcases hmem tr2 h2 with h3 | ⟨tr, htr, heq, hl⟩
            · exact Or.inl (List.mem_cons_of_mem _ h3)
            · exact Or.inr ⟨tr, List.mem_cons_of_mem _ htr, heq, hl⟩
    | some lc =>
      simp only [tryPlace, hgl] at h
      split_ifs at h with hcond
      · have h2 : (track ++ [command]) :: rest = tracks2 := by simpa using h
        subst h2
        refine ⟨by simp, ?_, ?_⟩
        · rw [List.flatten_cons, List.flatten_cons, List.append_assoc, List.append_assoc]
          exact List.perm_append_comm.append_left track
        · intro tr2 htr2
          rcases List.mem_cons.mp htr2 with rfl | h2
          · exact Or.inr ⟨track, List.mem_cons_self _ _, rfl, lc, hgl, hcond⟩
          · exact Or.inl (List.mem_cons_of_mem _ h2)
      · cases hr : tryPlace command rest with
        | none =>
          rw [hr] at h
          simp at h
        | some r2 =>
          rw [hr] at h
          have h2 : track :: r2 = tracks2 := by simpa using h
          subst h2
          obtain ⟨hlen, hperm, hmem⟩ := ih hr
          refine ⟨by simp [hlen], ?_, ?_⟩
          · rw [List.flatten_cons, List.flatten_cons, List.append_assoc]
            exact hperm.append_left track
          · intro tr2 htr2
            rcases List.mem_cons.mp htr2 with rfl | h2
            · exact Or.inl (List.mem_cons_self _ _)
            · rcases hmem tr2 h2 with h3 | ⟨tr, htr, heq, hl⟩
              · exact Or.inl (List.mem_cons_of_mem _ h3)
              · exact Or.inr ⟨tr, List.mem_cons_of_mem _ htr, heq, hl⟩

lemma placeCommand_spec (tracks : List (List StacyCommand)) (command : StacyCommand) :
    (placeCommand tracks command).flatten.Perm (tracks.flatten ++ [command]) ∧
    tracks.length ≤ (placeCommand tracks command).length ∧
    ((placeCommand tracks command).length = tracks.length ∨
      ((placeCommand tracks command).length = tracks.length + 1 ∧
        tryPlace command tracks = none)) ∧
    ∀ tr2 ∈ placeCommand tracks command,
      tr2 ∈ tracks ∨ tr2 = [command] ∨
      ∃ tr ∈ tracks, tr2 = tr ++ [command] ∧
        ∃ lastCommand, tr.getLast? = some lastCommand ∧ endsBefore lastCommand command := by
  rw [placeCommand]
  cases hr : tryPlace command tracks with
  | none =>
    refine ⟨?_, ?_, ?_, ?_⟩
    · rw [List.flatten_append]
      simp
    · simp
    · right
      simp
    · intro tr2 htr2
      rcases List.mem_append.mp htr2 with h | h
      · exact Or.inl h
      · exact Or.inr (Or.inl (List.mem_singleton.mp h))
  | some placed =>
    obtain ⟨hlen, hperm, hmem⟩ := tryPlace_some_spec hr
    refine ⟨hperm, le_of_eq hlen.symm, Or.inl hlen, ?_⟩
    intro tr2 htr2
    rcases hmem tr2 htr2 with h | ⟨tr, htr, heq, hl⟩
    · exact Or.inl h
    · exact Or.inr (Or.inr ⟨tr, htr, heq, hl⟩)

lemma length_le_countAt_flatten {tracks : List (List StacyCommand)} {t : ℚ}
    (h : ∀ tr ∈ tracks, ∃ a ∈ tr, containsInstant a t) :
    tracks.length ≤ countAt tracks.flatten t := by
  induction tracks with
  | nil => simp
  | cons tr rest ih =>
    rw [List.flatten_cons, countAt_append]
    have h1 : 1 ≤ countAt tr t := by
      rcases h tr (List.mem_cons_self _ _) with ⟨a, ha, hat⟩
      have hmem : a ∈ tr.filter (fun c => decide (containsInstant c t)) :=
        List.mem_filter.mpr ⟨ha, by simpa using hat⟩
      have := List.length_pos.mpr (List.ne_nil_of_mem hmem)
      simpa [countAt] using this
    have h2 := ih (fun tr2 htr2 => h tr2 (List.mem_cons_of_mem _ htr2))
    simp only [List.length_cons]
    omega

lemma foldl_placeCommand_spec :
    ∀ (l : List StacyCommand) (tracks : List (List StacyCommand)),
      l.Pairwise timeLE →
      (∀ c ∈ l, 0 < getCommandDuration c) →
      (∀ tr ∈ tracks, tr ≠ []) →
      (∀ tr ∈ tracks, tr.Chain' endsBefore) →
      (∀ a ∈ tracks.flatten, ∀ c ∈ l, a.time ≤ c.time) →
      (∀ tr ∈ l.foldl placeCommand tracks, tr ≠ []) ∧
      (∀ tr ∈ l.foldl placeCommand tracks, tr.Chain' endsBefore) ∧
      (l.foldl placeCommand tracks).flatten.Perm (tracks.flatten ++ l) ∧
      tracks.length ≤ (l.foldl placeCommand tracks).length ∧
      ((l.foldl placeCommand tracks).length = tracks.length ∨
        ∃ t : ℚ, (l.foldl placeCommand tracks).length ≤ countAt (tracks.flatten ++ l) t) := by
  intro l
  induction l with
  | nil =>
    intro tracks _ _ h1 h2 _
    refine ⟨h1, h2, by simp, le_refl _, Or.inl rfl⟩
  | cons c l ih =>
    intro tracks hsort hpos hne hch hbound
    rw [List.foldl_cons]
    obtain ⟨hperm1, hlen1, hcase1, hmem1⟩ := placeCommand_spec tracks c
    have hne2 : ∀ tr ∈ placeCommand tracks c, tr ≠ [] := by
      intro tr htr
      rcases hmem1 tr htr with h | h | ⟨tr0, _, rfl, _⟩
      · exact hne tr h
      · subst h
        simp
      · simp
    have hch2 : ∀ tr ∈ placeCommand tracks c, tr.Chain' endsBefore := by
      intro tr htr
      rcases hmem1 tr htr with h | h | ⟨tr0, htr0, rfl, lastCommand, hlast, hlc⟩
      · exact hch tr h
      · subst h
        exact List.chain'_singleton _
      · rw [List.chain'_append]
        refine ⟨hch tr0 htr0, List.chain'_singleton _, ?_⟩
        intro x hx y hy
        have hxl : x = lastCommand := by
          rw [show tr0.getLast? = some lastCommand from hlast] at hx
          exact (Option.some_inj.mp hx).symm
        have hyc : c = y := by
          simpa using hy
        rw [hxl, ← hyc]
        exact hlc
    have hbound2 : ∀ a ∈ (placeCommand tracks c).flatten, ∀ d ∈ l, a.time ≤ d.time := by
      intro a ha d hd
      have ha2 : a ∈ tracks.flatten ++ [c] := hperm1.mem_iff.mp ha
      rcases List.mem_append.mp ha2 with h | h
      · exact hbound a h d (List.mem_cons_of_mem _ hd)
      · rw [List.mem_singleton.mp h]
        exact (List.pairwise_cons.mp hsort).1 d hd
    have hsort2 : l.Pairwise timeLE := (List.pairwise_cons.mp hsort).2
    have hpos2 : ∀ d ∈ l, 0 < getCommandDuration d :=
      fun d hd => hpos d (List.mem_cons_of_mem _ hd)
    obtain ⟨hne3, hch3, hperm3, hlen3, hcase3⟩ :=
      ih (placeCommand tracks c) hsort2 hpos2 hne2 hch2 hbound2
    have hpermTotal : ((placeCommand tracks c).flatten ++ l).Perm
        (tracks.flatten ++ (c :: l)) := by
      have h1 := hperm1.append_right l
      have h2 : (tracks.flatten ++ [c]) ++ l = tracks.flatten ++ (c :: l) := by
        rw [List.append_assoc, List.singleton_append]
      rw [h2] at h1
      exact h1
    refine ⟨hne3, hch3, ?_, le_trans hlen1 hlen3, ?_⟩
    · exact hperm3.trans hpermTotal
    · rcases hcase3 with heq | ⟨t, ht⟩
      · rcases hcase1 with heq1 | ⟨heq1, hnone⟩
        · exact Or.inl (by rw [heq, heq1])
        · right
          refine ⟨c.time, ?_⟩
          rw [heq, heq1, countAt_append]
          have hstraddle : ∀ tr ∈ tracks, ∃ a ∈ tr, containsInstant a c.time := by
            intro tr htr
            cases hgl : tr.getLast? with
            | none =>
              exact absurd (List.getLast?_eq_none_iff.mp hgl) (hne tr htr)
            | some lastCommand =>
              refine ⟨lastCommand, mem_of_getLast?_eq hgl, ?_, ?_⟩
              · exact hbound lastCommand
                  (List.mem_flatten.mpr ⟨tr, htr, mem_of_getLast?_eq hgl⟩)
                  c (List.mem_cons_self _ _)
              · have := tryPlace_none hnone tr htr lastCommand hgl
                exact lt_of_not_le this
          have hflat : tracks.length ≤ countAt tracks.flatten c.time :=
            length_le_countAt_flatten hstraddle
          have hc : 1 ≤ countAt (c :: l) c.time := by
            rw [countAt_cons]
            have : containsInstant c c.time :=
              ⟨le_refl _, lt_add_of_pos_right _ (hpos c (List.mem_cons_self _ _))⟩
            rw [if_pos this]
            omega
          omega
      · right
        refine ⟨t, ?_⟩
        rw [← countAt_perm hpermTotal t]
        exact ht

lemma chain_ends_le (x : StacyCommand) (xs : List StacyCommand)
    (hch : List.Chain' endsBefore (x :: xs))
    (hd : ∀ a ∈ x :: xs, 0 ≤ getCommandDuration a) :
    ∀ b ∈ xs, x.time + getCommandDuration x ≤ b.time := by
  induction xs generalizing x with
  | nil =>
    intro b hb
    cases hb
  | cons y ys ih =>
    intro b hb
    have hxy : x.time + getCommandDuration x ≤ y.time := (List.chain'_cons.mp hch).1
    rcases List.mem_cons.mp hb with rfl | hb2
    · exact hxy
    · have hy : y.time + getCommandDuration y ≤ b.time :=
        ih y (List.chain'_cons.mp hch).2
          (fun a ha => hd a (List.mem_cons_of_mem _ ha)) b hb2
      have h0 : (0 : ℚ) ≤ getCommandDuration y :=
        hd y (List.mem_cons_of_mem _ (List.mem_cons_self _ _))
      linarith

lemma countAt_track_le_one (tr : List StacyCommand)
    (hch : tr.Chain' endsBefore)
    (hd : ∀ a ∈ tr, 0 ≤ getCommandDuration a) (t : ℚ) :
    countAt tr t ≤ 1 := by
  induction tr with
  | nil => simp [countAt]
  | cons x xs ih =>
    rw [countAt_cons]
    by_cases hx : containsInstant x t
    · rw [if_pos hx]
      have hnone : countAt xs t = 0 := by
        rw [countAt, List.length_eq_zero, List.filter_eq_nil_iff]
        intro b hb
        simp only [decide_eq_true_eq]
        intro hbc
        have hle := chain_ends_le x xs hch hd b hb
        rcases hx with ⟨hx1, hx2⟩
        rcases hbc with ⟨hb1, hb2⟩
        linarith
      omega
    · rw [if_neg hx]
      have := ih (List.Chain'.tail hch) (fun a ha => hd a (List.mem_cons_of_mem _ ha))
      omega

lemma countAt_flatten_le_length (tracks : List (List StacyCommand))
    (hch : ∀ tr ∈ tracks, tr.Chain' endsBefore)
    (hd : ∀ a ∈ tracks.flatten, 0 ≤ getCommandDuration a) (t : ℚ) :
    countAt tracks.flatten t ≤ tracks.length := by
  induction tracks with
  | nil => simp [countAt]
  | cons tr rest ih =>
    rw [List.flatten_cons, countAt_append]
    have h1 : countAt tr t ≤ 1 :=
      countAt_track_le_one tr (hch tr (List.mem_cons_self _ _))
        (fun a ha => hd a (by rw [List.flatten_cons]; exact List.mem_append_left _ ha)) t
    have h2 : countAt rest.flatten t ≤ rest.length :=
      ih (fun tr2 h => hch tr2 (List.mem_cons_of_mem _ h))
        (fun a ha => hd a (by rw [List.flatten_cons]; exact List.mem_append_right _ ha))
    simp only [List.length_cons]
    omega

lemma chain_pairwise_not_overlapping (tr : List StacyCommand)
    (hch : tr.Chain' endsBefore)
    (hd : ∀ a ∈ tr, 0 ≤ getCommandDuration a) :
    tr.Pairwise (fun a b => ¬ overlapping a b) := by
  induction tr with
  | nil => exact List.Pairwise.nil
  | cons x xs ih =>
    refine List.Pairwise.cons ?_
      (ih (List.Chain'.tail hch) (fun a ha => hd a (List.mem_cons_of_mem _ ha)))
    intro b hb hover
    have hle := chain_ends_le x xs hch hd b hb
    have h1 : max x.time b.time
        < min (x.time + getCommandDuration x) (b.time + getCommandDuration b) := hover
    have h2 : min (x.time + getCommandDuration x) (b.time + getCommandDuration b)
        ≤ x.time + getCommandDuration x := min_le_left _ _
    have h3 : b.time ≤ max x.time b.time := le_max_right _ _
    linarith

lemma mem_updateCommandTime {commands : List StacyCommand} {commandId : String}
    {newTime : ℚ} {c : StacyCommand} (hc : c ∈ updateCommandTime commands commandId newTime) :
    ∃ x ∈ commands, c = if x.id = commandId then { x with time := newTime } else x := by
  have h1 : c ∈ commands.map fun cmd =>
      if cmd.id = commandId then { cmd with time := newTime } else cmd :=
    (List.perm_insertionSort timeLE _).mem_iff.mp hc
  rcases List.mem_map.mp h1 with ⟨x, hx, hfx⟩
  exact ⟨x, hx, hfx.symm⟩

lemma updateCommandTime_mem {commands : List StacyCommand} {commandId : String}
    {newTime : ℚ} {x : StacyCommand} (hx : x ∈ commands) :
    (if x.id = commandId then { x with time := newTime } else x)
      ∈ updateCommandTime commands commandId newTime :=
  (List.perm_insertionSort timeLE _).mem_iff.mpr (List.mem_map_of_mem _ hx)

/-! ## Claim theorems -/

/-- C7: when `duration = 0`, both `timeToPixel` and `pixelToTime` return
exactly 0 for every input, by the explicit guard — no division by zero is
reached. -/
theorem zero_duration_maps_to_zero (zoom t x : ℚ) :
    timeToPixel 0 zoom t = 0 ∧ pixelToTime 0 zoom x = 0 := by
  simp [timeToPixel, pixelToTime]

/-- C4 (amended): the Timeline's `timelineWidth` is clamped into
`[800, 20000]`, while the AudioPlayer's `waveformDisplayWidth` only has the
lower bound 800; with `duration = 120` and `zoom = 1` both equal 7200 and
`timeToPixel 60 = 3600`. -/
theorem timelineWidth_bounds_scenarioC :
    (∀ duration zoom : ℚ,
        800 ≤ timelineWidth duration zoom ∧ timelineWidth duration zoom ≤ 20000 ∧
        800 ≤ waveformDisplayWidth duration zoom) ∧
    timelineWidth 120 1 = 7200 ∧
    waveformDisplayWidth 120 1 = 7200 ∧
    timeToPixel 120 1 60 = 3600 := by
  refine ⟨fun duration zoom => ⟨le_min (by norm_num) (le_max_left _ _), min_le_left _ _,
    le_max_left _ _⟩, ?_, ?_, ?_⟩ <;>
    norm_num [timelineWidth, waveformDisplayWidth, timeToPixel]

/-- C4 (counterexample): the width used by the waveform display is not capped
at 20000: with `duration = 400` and `zoom = 1` it is 24000, not the clamped
20000. -/
theorem waveformDisplayWidth_exceeds_cap :
    waveformDisplayWidth 400 1 = 24000 ∧
    ¬ waveformDisplayWidth 400 1 ≤ 20000 ∧
    min 20000 (max 800 ((400 : ℚ) * 60 * 1)) = 20000 := by
  norm_num [waveformDisplayWidth]

lemma generateWaveform_nil_of_small {sq : ℚ → ℚ} {rawData : List ℚ} {audioDuration : ℚ}
    (h : rawData.length < 1024) : generateWaveform sq rawData audioDuration = [] := by
  have h0 : waveformBlockCount rawData.length = 0 := by
    simp [waveformBlockCount, Nat.div_eq_of_lt h]
  simp [generateWaveform, runAnalysis, h0, normalizeWaveform, listMax]

/-- C2 (amended): `blockCount = min(1500, floor(sampleCount / 1024))` with no
small-buffer guard, so for a buffer of fewer than 1024 samples the block
count is 0 and the waveform output is empty. -/
theorem waveformBlockCount_small_buffer (sq : ℚ → ℚ) (rawData : List ℚ)
    (audioDuration : ℚ) (h : rawData.length < 1024) :
    waveformBlockCount rawData.length = min 1500 (rawData.length / 1024) ∧
    waveformBlockCount rawData.length = 0 ∧
    generateWaveform sq rawData audioDuration = [] := by
  have h0 : waveformBlockCount rawData.length = 0 := by
    simp [waveformBlockCount, Nat.div_eq_of_lt h]
  exact ⟨rfl, h0, generateWaveform_nil_of_small h⟩

/-- C2 (witness): a one-sample buffer has fewer than 1024 samples, its block
count is 0, and its waveform output is empty. -/
theorem waveformBlockCount_small_buffer_witness :
    ([(1 : ℚ)].length < 1024) ∧
    (waveformBlockCount [(1 : ℚ)].length = min 1500 ([(1 : ℚ)].length / 1024) ∧
     waveformBlockCount [(1 : ℚ)].length = 0 ∧
     generateWaveform (fun q => q) [(1 : ℚ)] 1 = []) :=
  ⟨by decide, waveformBlockCount_small_buffer (fun q => q) [(1 : ℚ)] 1 (by decide)⟩

/-- C2 (counterexample): a non-empty buffer of 512 samples gets block count
`min(1500, floor(512/1024)) = 0`, not 1, and the waveform output is empty. -/
theorem waveformBlockCount_no_guard :
    waveformBlockCount 512 = 0 ∧
    waveformBlockCount 512 ≠ 1 ∧
    generateWaveform (fun q => q) (List.replicate 512 1) 1 = [] ∧
    List.replicate 512 (1 : ℚ) ≠ [] := by
  have hlen : (List.replicate 512 (1 : ℚ)).length = 512 := List.length_replicate _ _
  refine ⟨rfl, by decide, generateWaveform_nil_of_small (by rw [hlen]; norm_num), ?_⟩
  intro hnil
  rw [hnil] at hlen
  simp at hlen

/-- C6: on decode/analysis failure the analyzer returns the constant fallback
waveform — length 100, every value `0.1` — paired with an empty beat list,
instead of propagating the error. -/
theorem analyzeAudioBuffer_fallback (sq : ℚ → ℚ) :
    (analyzeAudioBuffer sq none).1.length = 100 ∧
    (∀ v ∈ (analyzeAudioBuffer sq none).1, v = 1/10) ∧
    (analyzeAudioBuffer sq none).2 = [] := by
  refine ⟨by simp [analyzeAudioBuffer, fallbackWaveform], ?_, rfl⟩
  intro v hv
  exact List.eq_of_mem_replicate hv

/-- C10: the derived duration is a pure function of type and parameters:
`fadeSpeed ?? 1` for FadeOn/FadeOff, 2 for Color, 3 for Cue, and the
0.1-second point-effect default for every other command type. -/
theorem getCommandDuration_table (s : String) (t : ℚ) (p : CommandParameters) (fs : ℚ) :
    getCommandDuration ⟨s, t, .FadeOn, p⟩ = p.fadeSpeed.getD 1 ∧
    getCommandDuration ⟨s, t, .FadeOff, p⟩ = p.fadeSpeed.getD 1 ∧
    getCommandDuration ⟨s, t, .FadeOn, { p with fadeSpeed := none }⟩ = 1 ∧
    getCommandDuration ⟨s, t, .FadeOff, { p with fadeSpeed := none }⟩ = 1 ∧
    getCommandDuration ⟨s, t, .FadeOn, { p with fadeSpeed := some fs }⟩ = fs ∧
    getCommandDuration ⟨s, t, .FadeOff, { p with fadeSpeed := some fs }⟩ = fs ∧
    getCommandDuration ⟨s, t, .Color, p⟩ = 2 ∧
    getCommandDuration ⟨s, t, .Cue, p⟩ = 3 ∧
    getCommandDuration ⟨s, t, .On, p⟩ = 1/10 ∧
    getCommandDuration ⟨s, t, .Off, p⟩ = 1/10 ∧
    getCommandDuration ⟨s, t, .Action, p⟩ = 1/10 ∧
    getCommandDuration ⟨s, t, .BeamMode, p⟩ = 1/10 ∧
    getCommandDuration ⟨s, t, .BeamThickness, p⟩ = 1/10 ∧
    getCommandDuration ⟨s, t, .GoboSpread, p⟩ = 1/10 ∧
    getCommandDuration ⟨s, t, .Tilt, p⟩ = 1/10 ∧
    getCommandDuration ⟨s, t, .Pan, p⟩ = 1/10 ∧
    getCommandDuration ⟨s, t, .MotorSpeed, p⟩ = 1/10 ∧
    getCommandDuration ⟨s, t, .RotateGobo, p⟩ = 1/10 ∧
    getCommandDuration ⟨s, t, .Follow, p⟩ = 1/10 ∧
    getCommandDuration ⟨s, t, .StopFollowing, p⟩ = 1/10 ∧
    getCommandDuration ⟨s, t, .SmoothColor, p⟩ = 1/10 ∧
    getCommandDuration ⟨s, t, .AnimatedGradients, p⟩ = 1/10 ∧
    getCommandDuration ⟨s, t, .SetGlobalCueSetting, p⟩ = 1/10 ∧
    getCommandDuration ⟨s, t, .SetCueSetting, p⟩ = 1/10 ∧
    getCommandDuration ⟨s, t, .LoopCues, p⟩ = 1/10 ∧
    getCommandDuration ⟨s, t, .CueSpeed, p⟩ = 1/10 ∧
    getCommandDuration ⟨s, t, .FadeSpeed, p⟩ = 1/10 ∧
    getCommandDuration ⟨s, t, .Dimness, p⟩ = 1/10 ∧
    getCommandDuration ⟨s, t, .Reset, p⟩ = 1/10 ∧
    getCommandDuration ⟨s, t, .HardReset, p⟩ = 1/10 := by
  simp [getCommandDuration]

/-- C9: from any state — auto-following or suspended — a manual scroll
immediately suspends auto-follow and re-arms the 2100 ms timer; the timer
resumes auto-follow when more than 2000 ms have passed since the last scroll;
from a suspended state the only transitions back to auto-follow are a seek or
such a timer firing; a seek resumes auto-follow immediately. -/
theorem scrollStep_suspend_resume (st : ScrollState) (now : ℚ) (e : ScrollEvent) :
    (scrollStep st (.scroll now)).isUserScrolling = true ∧
    (scrollStep st (.scroll now)).pendingTimerAt = some (now + 2100) ∧
    (2000 < now - st.lastScrollTime →
      (scrollStep st (.timerFire now)).isUserScrolling = false) ∧
    (st.isUserScrolling = true →
      (scrollStep st e).isUserScrolling = false →
      (∃ n, e = ScrollEvent.seek n) ∨
      ∃ n, e = ScrollEvent.timerFire n ∧ 2000 < n - st.lastScrollTime) ∧
    (scrollStep st (.seek now)).isUserScrolling = false := by
  refine ⟨rfl, rfl, fun h => by simp [scrollStep, if_pos h], ?_, rfl⟩
  intro hsusp hres
  cases e with
  | scroll n => simp [scrollStep] at hres
  | timerFire n =>
    refine Or.inr ⟨n, rfl, ?_⟩
    by_contra hn
    rw [scrollStep] at hres
    simp only [if_neg hn] at hres
    exact absurd (hsusp ▸ hres) (by simp)
  | seek n => exact Or.inl ⟨n, rfl⟩

/-- C9 (witness): the scroll-machine theorem applied to a concrete suspended
state and a concrete seek event; the scroll conjunct itself is stated for any
state, including the auto-following one. -/
theorem scrollStep_suspend_resume_witness :
    (scrollStep suspendedScrollState (.scroll 2100)).isUserScrolling = true ∧
    (scrollStep suspendedScrollState (.scroll 2100)).pendingTimerAt = some (2100 + 2100) ∧
    (2000 < (2100 : ℚ) - suspendedScrollState.lastScrollTime →
      (scrollStep suspendedScrollState (.timerFire 2100)).isUserScrolling = false) ∧
    (suspendedScrollState.isUserScrolling = true →
      (scrollStep suspendedScrollState (.seek 0)).isUserScrolling = false →
      (∃ n, ScrollEvent.seek 0 = ScrollEvent.seek n) ∨
      ∃ n, ScrollEvent.seek 0 = ScrollEvent.timerFire n ∧
        2000 < n - suspendedScrollState.lastScrollTime) ∧
    (scrollStep suspendedScrollState (.seek 2100)).isUserScrolling = false :=
  scrollStep_suspend_resume suspendedScrollState 2100 (.seek 0)

/-- C8: on every pointer-move during a drag, the candidate time
`pixelToTime(pointerX - rectLeft - capturedOffset)` is clamped into
`[0, duration]` — never rejected — and propagated at once as a live update:
every command carrying the dragged id now has the clamped time, all other
commands are untouched. -/
theorem handleMouseMove_live_clamped (duration zoom dragOffset clientX rectLeft : ℚ)
    (cmd : StacyCommand) (commands : List StacyCommand) (hdur : 0 ≤ duration) :
    0 ≤ max 0 (min duration (pixelToTime duration zoom (clientX - rectLeft - dragOffset))) ∧
    max 0 (min duration (pixelToTime duration zoom (clientX - rectLeft - dragOffset)))
      ≤ duration ∧
    (∀ c ∈ handleMouseMove duration zoom true (some cmd) dragOffset clientX rectLeft commands,
      c.id = cmd.id →
      c.time = max 0 (min duration (pixelToTime duration zoom (clientX - rectLeft - dragOffset)))) ∧
    (∀ c ∈ commands, c.id ≠ cmd.id →
      c ∈ handleMouseMove duration zoom true (some cmd) dragOffset clientX rectLeft commands) ∧
    ((∃ x ∈ commands, x.id = cmd.id) →
      ∃ c ∈ handleMouseMove duration zoom true (some cmd) dragOffset clientX rectLeft commands,
        c.id = cmd.id ∧
        c.time = max 0 (min duration (pixelToTime duration zoom (clientX - rectLeft - dragOffset)))) := by
  have hmm : handleMouseMove duration zoom true (some cmd) dragOffset clientX rectLeft commands
      = updateCommandTime commands cmd.id
          (max 0 (min duration (pixelToTime duration zoom (clientX - rectLeft - dragOffset)))) := rfl
  refine ⟨le_max_left _ _, max_le hdur (min_le_left _ _), ?_, ?_, ?_⟩
  · intro c hc hid
    rw [hmm] at hc
    rcases mem_updateCommandTime hc with ⟨x, _, hcx⟩
    by_cases hx : x.id = cmd.id
    · rw [hcx, if_pos hx]
    · rw [hcx, if_neg hx] at hid ⊢
      exact absurd hid hx
  · intro c hc hid
    have := @updateCommandTime_mem commands cmd.id
      (max 0 (min duration (pixelToTime duration zoom (clientX - rectLeft - dragOffset)))) c hc
    rw [if_neg hid] at this
    rw [hmm]
    exact this
  · rintro ⟨x, hx, hid⟩
    refine ⟨{ x with time := max 0 (min duration (pixelToTime duration zoom (clientX - rectLeft - dragOffset))) }, ?_, hid, rfl⟩
    have := @updateCommandTime_mem commands cmd.id
      (max 0 (min duration (pixelToTime duration zoom (clientX - rectLeft - dragOffset)))) x hx
    rw [if_pos hid] at this
    rw [hmm]
    exact this

/-- C8 (witness): the drag theorem applied at pointer x = 210, captured
offset 10, duration 20, zoom 1. -/
theorem handleMouseMove_live_clamped_witness :
    (0 ≤ (20 : ℚ)) ∧
    (0 ≤ max 0 (min 20 (pixelToTime 20 1 (210 - 0 - 10))) ∧
     max 0 (min 20 (pixelToTime 20 1 (210 - 0 - 10))) ≤ 20 ∧
     (∀ c ∈ handleMouseMove 20 1 true (some dragWitnessCommand) 10 210 0 [dragWitnessCommand],
        c.id = dragWitnessCommand.id →
        c.time = max 0 (min 20 (pixelToTime 20 1 (210 - 0 - 10)))) ∧
     (∀ c ∈ [dragWitnessCommand], c.id ≠ dragWitnessCommand.id →
        c ∈ handleMouseMove 20 1 true (some dragWitnessCommand) 10 210 0 [dragWitnessCommand]) ∧
     ((∃ x ∈ [dragWitnessCommand], x.id = dragWitnessCommand.id) →
        ∃ c ∈ handleMouseMove 20 1 true (some dragWitnessCommand) 10 210 0 [dragWitnessCommand],
          c.id = dragWitnessCommand.id ∧
          c.time = max 0 (min 20 (pixelToTime 20 1 (210 - 0 - 10))))) :=
  ⟨by norm_num,
    handleMouseMove_live_clamped 20 1 10 210 0 dragWitnessCommand [dragWitnessCommand]
      (by norm_num)⟩

/-- C3 (amended): the normalized waveform has length at most 1500 and every
value in `[0, 1]`; if all samples are zero every value is 0; and whenever
some sample actually read by an analysis block is nonzero, at least one value
equals 1.  (Samples past index `blockSize * blockCount` are never read, and
buffers under 1024 samples produce an empty output.) -/
theorem generateWaveform_normalized (sq : ℚ → ℚ) (rawData : List ℚ) (audioDuration : ℚ)
    (hsq0 : sq 0 = 0) :
    (generateWaveform sq rawData audioDuration).length ≤ 1500 ∧
    (∀ v ∈ generateWaveform sq rawData audioDuration, 0 ≤ v ∧ v ≤ 1) ∧
    ((∀ s ∈ rawData, s = 0) → ∀ v ∈ generateWaveform sq rawData audioDuration, v = 0) ∧
    (∀ j : ℕ,
      j < rawData.length / waveformBlockCount rawData.length * waveformBlockCount rawData.length →
      rawData.getD j 0 ≠ 0 →
      ∃ v ∈ generateWaveform sq rawData audioDuration, v = 1) := by
  have hpts : (runAnalysis sq rawData audioDuration).waveformPoints
      = (List.range (waveformBlockCount rawData.length)).map
          (blockAmplitude sq rawData (rawData.length / waveformBlockCount rawData.length)) :=
    runAnalysis_points sq rawData audioDuration
  have hout : generateWaveform sq rawData audioDuration
      = normalizeWaveform (runAnalysis sq rawData audioDuration).waveformPoints := rfl
  have hnneg : ∀ p ∈ (runAnalysis sq rawData audioDuration).waveformPoints, 0 ≤ p := by
    intro p hp
    rw [hpts] at hp
    rcases List.mem_map.mp hp with ⟨i, _, hip⟩
    exact hip ▸ blockAmplitude_nonneg sq rawData _ i
  cases hmax : listMax (runAnalysis sq rawData audioDuration).waveformPoints with
  | none =>
    have hempty : generateWaveform sq rawData audioDuration = [] := by
      rw [hout, normalizeWaveform, hmax]
    have hptsnil := listMax_none hmax
    rw [hpts] at hptsnil
    have hrange : List.range (waveformBlockCount rawData.length) = [] :=
      List.map_eq_nil_iff.mp hptsnil
    have hsamples : waveformBlockCount rawData.length = 0 := by
      simpa [List.range_eq_nil] using hrange
    refine ⟨by rw [hempty]; simp, by rw [hempty]; simp, by rw [hempty]; simp, ?_⟩
    intro j hj _
    rw [hsamples, Nat.mul_zero] at hj
    cases Nat.not_lt_zero j hj
  | some m =>
    have houtm : generateWaveform sq rawData audioDuration
        = (runAnalysis sq rawData audioDuration).waveformPoints.map
            (fun v => if 0 < m then v / m else 0) := by
      rw [hout, normalizeWaveform, hmax]
    have hle := le_listMax hmax
    refine ⟨?_, ?_, ?_, ?_⟩
    · rw [houtm, List.length_map, hpts, List.length_map, List.length_range]
      exact min_le_left _ _
    · intro v hv
      rw [houtm] at hv
      rcases List.mem_map.mp hv with ⟨p, hp, hpv⟩
      by_cases hm : 0 < m
      · rw [← hpv, if_pos hm]
        exact ⟨div_nonneg (hnneg p hp) (le_of_lt hm), (div_le_one hm).mpr (hle p hp)⟩
      · rw [← hpv, if_neg hm]
        norm_num
    · intro hzero v hv
      have hall : ∀ p ∈ (runAnalysis sq rawData audioDuration).waveformPoints, p = 0 := by
        intro p hp
        rw [hpts] at hp
        rcases List.mem_map.mp hp with ⟨i, _, hip⟩
        exact hip ▸ blockAmplitude_eq_zero hzero hsq0 _ i
      have hm0 : m = 0 := hall m (listMax_mem hmax)
      rw [houtm] at hv
      rcases List.mem_map.mp hv with ⟨p, hp, hpv⟩
      rw [← hpv, hm0]
      simp
    · intro j hj hjne
      have hbpos : 0 < rawData.length / waveformBlockCount rawData.length := by
        rcases Nat.eq_zero_or_pos (rawData.length / waveformBlockCount rawData.length) with h | h
        · rw [h, Nat.zero_mul] at hj
          cases Nat.not_lt_zero j hj
        · exact h
      have hi : j / (rawData.length / waveformBlockCount rawData.length)
          < waveformBlockCount rawData.length := by
        rw [Nat.div_lt_iff_lt_mul hbpos]
        exact lt_of_lt_of_le hj (le_of_eq (Nat.mul_comm _ _))
      have hstart : (rawData.length / waveformBlockCount rawData.length)
            * (j / (rawData.length / waveformBlockCount rawData.length)) ≤ j :=
        Nat.mul_div_le j _
      have hmod := Nat.mod_lt j hbpos
      have hdm := Nat.div_add_mod j (rawData.length / waveformBlockCount rawData.length)
      have hjlt : j < (rawData.length / waveformBlockCount rawData.length)
            * (j / (rawData.length / waveformBlockCount rawData.length))
            + rawData.length / waveformBlockCount rawData.length := by
        omega
      have hjlen : j < rawData.length :=
        lt_of_lt_of_le hj (Nat.div_mul_le_self _ _)
      have hjmem : j ∈ blockIndices
          ((rawData.length / waveformBlockCount rawData.length)
            * (j / (rawData.length / waveformBlockCount rawData.length)))
          (min ((rawData.length / waveformBlockCount rawData.length)
              * (j / (rawData.length / waveformBlockCount rawData.length))
              + rawData.length / waveformBlockCount rawData.length) rawData.length) := by
        apply List.mem_map.mpr
        refine ⟨j - (rawData.length / waveformBlockCount rawData.length)
            * (j / (rawData.length / waveformBlockCount rawData.length)), ?_, by omega⟩
        apply List.mem_range.mpr
        have hjend : j < min ((rawData.length / waveformBlockCount rawData.length)
            * (j / (rawData.length / waveformBlockCount rawData.length))
            + rawData.length / waveformBlockCount rawData.length) rawData.length :=
          lt_min hjlt hjlen
        omega
      have hpeak : 0 < blockPeak rawData
          ((rawData.length / waveformBlockCount rawData.length)
            * (j / (rawData.length / waveformBlockCount rawData.length)))
          (min ((rawData.length / waveformBlockCount rawData.length)
              * (j / (rawData.length / waveformBlockCount rawData.length))
              + rawData.length / waveformBlockCount rawData.length) rawData.length) :=
        lt_of_lt_of_le (abs_pos.mpr hjne) (abs_getD_le_blockPeak hjmem)
      have hamp : 0 < blockAmplitude sq rawData
          (rawData.length / waveformBlockCount rawData.length)
          (j / (rawData.length / waveformBlockCount rawData.length)) :=
        lt_of_lt_of_le hpeak (blockPeak_le_blockAmplitude _ _ _ _)
      have hampmem : blockAmplitude sq rawData
            (rawData.length / waveformBlockCount rawData.length)
            (j / (rawData.length / waveformBlockCount rawData.length))
          ∈ (runAnalysis sq rawData audioDuration).waveformPoints := by
        rw [hpts]
        exact List.mem_map_of_mem _ (List.mem_range.mpr hi)
      have hm : 0 < m := lt_of_lt_of_le hamp (hle _ hampmem)
      refine ⟨m / m, ?_, div_self (ne_of_gt hm)⟩
      rw [houtm]
      have := List.mem_map_of_mem (fun v => if 0 < m then v / m else 0) (listMax_mem hmax)
      simpa only [if_pos hm] using this

/-- C3 (witness): the normalization theorem applied to a concrete square-root
function and a concrete 2048-sample buffer. -/
theorem generateWaveform_normalized_witness :
    ((fun q : ℚ => q) 0 = 0) ∧
    ((generateWaveform (fun q => q) (List.replicate 2048 1) 1).length ≤ 1500 ∧
     (∀ v ∈ generateWaveform (fun q => q) (List.replicate 2048 1) 1, 0 ≤ v ∧ v ≤ 1) ∧
     ((∀ s ∈ List.replicate 2048 (1 : ℚ), s = 0) →
       ∀ v ∈ generateWaveform (fun q => q) (List.replicate 2048 1) 1, v = 0) ∧
     (∀ j : ℕ,
       j < (List.replicate 2048 (1 : ℚ)).length
            / waveformBlockCount (List.replicate 2048 (1 : ℚ)).length
            * waveformBlockCount (List.replicate 2048 (1 : ℚ)).length →
       (List.replicate 2048 (1 : ℚ)).getD j 0 ≠ 0 →
       ∃ v ∈ generateWaveform (fun q => q) (List.replicate 2048 1) 1, v = 1)) :=
  ⟨rfl, generateWaveform_normalized (fun q => q) (List.replicate 2048 1) 1 rfl⟩

/-- C3 (counterexample): a single-sample buffer `[1]` is not all-zero, yet
the analyzer output is empty, so no value equals 1. -/
theorem generateWaveform_missing_peak :
    generateWaveform (fun q => q) [1] 1 = [] ∧
    (¬ ∀ s ∈ ([1] : List ℚ), s = 0) ∧
    ¬ ∃ v ∈ generateWaveform (fun q => q) [1] 1, v = 1 := by
  have h : generateWaveform (fun q => q) [(1 : ℚ)] 1 = [] :=
    generateWaveform_nil_of_small (by norm_num)
  refine ⟨h, by norm_num, ?_⟩
  rw [h]
  simp

/-- C5: the beat list is ascending in time (never two events with decreasing
time), and any beat emitted at a step whose smoothed previous energy is
positive — the ratio path — either was already present or has
`strength = energy / previousEnergy > 1`. -/
theorem generateBeats_ascending (sq : ℚ → ℚ) (rawData : List ℚ) (audioDuration : ℚ)
    (hdur : 0 ≤ audioDuration) :
    (generateBeats sq rawData audioDuration).Pairwise (fun a b => a.time ≤ b.time) ∧
    ∀ (blockSize samples : ℕ) (st : AnalysisState) (i : ℕ),
      0 < st.previousEnergy →
      ∀ b ∈ (analyzeStep sq rawData blockSize samples audioDuration st i).beats,
        b ∈ st.beats ∨ 1 < b.strength := by
  constructor
  · exact (foldl_analyzeStep_beats_sorted sq rawData
      (rawData.length / waveformBlockCount rawData.length)
      (waveformBlockCount rawData.length) audioDuration hdur
      (waveformBlockCount rawData.length)).1
  · intro blockSize samples st i hprev
    exact analyzeStep_ratio_strength sq rawData blockSize samples audioDuration st i hprev

/-- C5 (witness): the beat theorem applied to a concrete square-root
function, buffer, and duration. -/
theorem generateBeats_ascending_witness :
    ((0 : ℚ) ≤ 1) ∧
    ((generateBeats (fun q => q) (List.replicate 2048 1) 1).Pairwise
        (fun a b => a.time ≤ b.time) ∧
     ∀ (blockSize samples : ℕ) (st : AnalysisState) (i : ℕ),
       0 < st.previousEnergy →
       ∀ b ∈ (analyzeStep (fun q => q) (List.replicate 2048 1) blockSize samples 1 st i).beats,
         b ∈ st.beats ∨ 1 < b.strength) :=
  ⟨by norm_num, generateBeats_ascending (fun q => q) (List.replicate 2048 1) 1 (by norm_num)⟩

/-- C1 (amended): for a lane all of whose commands have positive derived
duration, `organizeCommandsIntoTracks` produces rows with no two overlapping
commands, and the number of rows equals the maximum number of lane commands
whose half-open intervals contain a single instant (the interval graph's
clique number). -/
theorem organizeCommandsIntoTracks_optimal (commands : List StacyCommand)
    (lightType : LightType)
    (hpos : ∀ c ∈ laneCommands commands lightType, 0 < getCommandDuration c) :
    (∀ track ∈ organizeCommandsIntoTracks commands lightType,
        track.Pairwise (fun a b => ¬ overlapping a b)) ∧
    (∀ t : ℚ, countAt (laneCommands commands lightType) t
        ≤ (organizeCommandsIntoTracks commands lightType).length) ∧
    (∃ t : ℚ, countAt (laneCommands commands lightType) t
        = (organizeCommandsIntoTracks commands lightType).length) := by
  have hsort : (laneCommands commands lightType).Pairwise timeLE :=
    List.sorted_insertionSort timeLE _
  obtain ⟨hne, hch, hperm, _, hcase⟩ :=
    foldl_placeCommand_spec (laneCommands commands lightType) [] hsort hpos
      (by simp) (by simp) (by simp)
  have hperm2 : (organizeCommandsIntoTracks commands lightType).flatten.Perm
      (laneCommands commands lightType) := by
    simpa using hperm
  have hdur0 : ∀ a ∈ (organizeCommandsIntoTracks commands lightType).flatten,
      0 ≤ getCommandDuration a :=
    fun a ha => le_of_lt (hpos a (hperm2.mem_iff.mp ha))
  have hupper : ∀ t : ℚ, countAt (laneCommands commands lightType) t
      ≤ (organizeCommandsIntoTracks commands lightType).length := by
    intro t
    rw [← countAt_perm hperm2 t]
    exact countAt_flatten_le_length _ hch hdur0 t
  refine ⟨?_, hupper, ?_⟩
  · intro track htrack
    exact chain_pairwise_not_overlapping track (hch track htrack)
      (fun a ha => hdur0 a (List.mem_flatten.mpr ⟨track, htrack, ha⟩))
  · rcases hcase with heq | ⟨t, ht⟩
    · refine ⟨0, ?_⟩
      have hlen0 : (organizeCommandsIntoTracks commands lightType).length = 0 := by
        simpa using heq
      have horgnil : organizeCommandsIntoTracks commands lightType = [] :=
        List.length_eq_zero.mp hlen0
      have hlane : laneCommands commands lightType = [] := by
        have hp := hperm2
        rw [horgnil] at hp
        exact hp.symm.eq_nil
      rw [hlane, hlen0]
      rfl
    · refine ⟨t, le_antisymm (hupper t) ?_⟩
      simpa using ht

/-- C1 (witness): the greedy-optimality theorem applied to the concrete
scenario-B lane, whose three point effects all have duration 0.1 > 0. -/
theorem organizeCommandsIntoTracks_optimal_witness :
    (∀ c ∈ laneCommands laneWitnessCommands .BarsA, 0 < getCommandDuration c) ∧
    ((∀ track ∈ organizeCommandsIntoTracks laneWitnessCommands .BarsA,
        track.Pairwise (fun a b => ¬ overlapping a b)) ∧
     (∀ t : ℚ, countAt (laneCommands laneWitnessCommands .BarsA) t
        ≤ (organizeCommandsIntoTracks laneWitnessCommands .BarsA).length) ∧
     (∃ t : ℚ, countAt (laneCommands laneWitnessCommands .BarsA) t
        = (organizeCommandsIntoTracks laneWitnessCommands .BarsA).length)) :=
  ⟨by norm_num [laneCommands, laneWitnessCommands, List.insertionSort, List.orderedInsert,
      timeLE, getCommandDuration],
   organizeCommandsIntoTracks_optimal laneWitnessCommands .BarsA
     (by norm_num [laneCommands, laneWitnessCommands, List.insertionSort, List.orderedInsert,
        timeLE, getCommandDuration])⟩

/-- C1 (counterexample): with a FadeOn command of `fadeSpeed = 0` — an empty
interval — the greedy layout opens 2 rows although no instant is contained in
more than 1 of the lane's intervals, so the row count exceeds the clique
number. -/
theorem organizeCommandsIntoTracks_not_clique_optimal :
    (organizeCommandsIntoTracks zeroDurationLane .BarsA).length = 2 ∧
    (∀ t : ℚ, countAt (laneCommands zeroDurationLane .BarsA) t ≤ 1) ∧
    ¬ ∃ t : ℚ, countAt (laneCommands zeroDurationLane .BarsA) t
        = (organizeCommandsIntoTracks zeroDurationLane .BarsA).length := by
  have hlane : laneCommands zeroDurationLane .BarsA
      = [⟨"a", 0, .On, ⟨.BarsA, none⟩⟩, ⟨"b", 0, .FadeOn, ⟨.BarsA, some 0⟩⟩] := by
    norm_num [laneCommands, zeroDurationLane, List.insertionSort, List.orderedInsert, timeLE]
  have hlen : (organizeCommandsIntoTracks zeroDurationLane .BarsA).length = 2 := by
    norm_num [organizeCommandsIntoTracks, laneCommands, zeroDurationLane, List.insertionSort,
      List.orderedInsert, timeLE, placeCommand, tryPlace, getCommandDuration, endsBefore]
  have hbound : ∀ t : ℚ, countAt (laneCommands zeroDurationLane .BarsA) t ≤ 1 := by
    intro t
    rw [hlane, countAt_cons, countAt_cons]
    have hb : ¬ containsInstant ⟨"b", 0, .FadeOn, ⟨.BarsA, some 0⟩⟩ t := by
      rintro ⟨h1, h2⟩
      have h2q : t < 0 := by
        simpa [getCommandDuration] using h2
      have h1q : (0 : ℚ) ≤ t := h1
      linarith
    have h0 : countAt ([] : List StacyCommand) t = 0 := rfl
    rw [if_neg hb, h0]
    split_ifs <;> omega
  refine ⟨hlen, hbound, ?_⟩
  rintro ⟨t, ht⟩
  have := hbound t
  rw [ht, hlen] at this
  omega

end Tomtom
